import Mathlib

/-!
# BboltDemo: a verification development of `main.go`

The driver `main.go` fills a bbolt database with `numBuckets` buckets of
`txPerBucket` records each, deletes 5000 random records, compacts the database
into a second file and adds 5000 records to the compacted copy.

The embedding is shallow.  Go `int` values are `Int` (every value that occurs is
far below `2^63`, so no wrap-around is modelled).  A `[]byte` built with
`fmt.Sprintf` is a `String`.  A database is a list of named buckets, a bucket a
list of key/value pairs; a writable transaction works on such a list and
`DB.Update` installs the result on commit.  The random source and the clock
are inputs (`Env`), and so are the storage faults that make `Put` or
`CreateBucketIfNotExists` return an error.
-/

namespace BboltDemo

/-! ## Constants of `main.go` -/

def bucketPrefix : String := "bucket"
def keyPrefix : String := "key"
def srcDbPath : String := "./data.db"
def dstDbPath : String := "./newData.db"
def numItems : Int := 1000000
def numBuckets : Int := 500
def txPerBucket : Int := numItems / numBuckets

/-! ## `fmt.Sprintf` verbs -/

/-- Rendering of a Go `int` by the verb `%d`: decimal digits, with a leading
minus sign for a negative number. -/
def fmtInt (n : Int) : String := toString n

/-! ## Outcome of a Go function that returns `error` -/

/-- Result status of a call: `nil` error, a non-nil `error`, or a run-time panic
that unwinds the stack. -/
inductive Status where
  | nil : Status
  | error (msg : String) : Status
  | panicked (msg : String) : Status
deriving DecidableEq, Repr

/-- The Go `for i := lo; i < hi; i++` loop whose body may leave the loop early
(by `return err`, `log.Fatal` or a panic): `n` is the number of iterations that
remain and `i` the current value of the loop variable. -/
def forLoopAux {σ : Type} (body : Int → σ → Status × σ) : Nat → Int → σ → Status × σ
  | 0, _, s => (Status.nil, s)
  | n + 1, i, s =>
    match body i s with
    | (Status.nil, s1) => forLoopAux body n (i + 1) s1
    | (st, s1) => (st, s1)

/-- Loop `for i := lo; i < hi; i++` with the body `body`. -/
def forLoop {σ : Type} (lo hi : Int) (body : Int → σ → Status × σ) (s : σ) : Status × σ :=
  forLoopAux body (hi - lo).toNat lo s

/-! ## Helpers of `main.go` that do not touch the database -/

/-- Source `bucketName`: the bucket name for an index. -/
def bucketName (index : Int) : String :=
  bucketPrefix ++ "_" ++ fmtInt index

/-- Source `type Content struct`; the time stamp is kept in its JSON rendering. -/
structure Content where
  Title : String
  Createdtime : String
deriving DecidableEq, Repr

/-- The encoding `json.Marshal` gives a `Content` value (`Title` holds only
letters and digits here, so nothing is escaped). -/
def jsonMarshal (obj : Content) : Except String String :=
  Except.ok ("\x7b\"Title\":\"" ++ obj.Title ++ "\",\"Createdtime\":\"" ++ obj.Createdtime ++ "\"\x7d")

/-- Source `generateKeyValue`; `now` is the reading of `time.Now()`. -/
def generateKeyValue (now : String) (bucketIndex keyIndex : Int) :
    Except String (String × String) :=
  let key := keyPrefix ++ "_" ++ fmtInt bucketIndex ++ "_" ++ fmtInt keyIndex
  let obj : Content := ⟨"content" ++ fmtInt keyIndex, now⟩
  match jsonMarshal obj with
  | Except.error err => Except.error err
  | Except.ok value => Except.ok (key, value)

/-- The call `rand.Intn(n)` when the random source yields the raw value `r`: a
panic for `n <= 0`, otherwise a number in `[0, n)`; every number of that range
is the result for some `r`. -/
def Intn (n : Int) (r : Nat) : Option Int :=
  if n ≤ 0 then none else some ((r : Int) % n)

/-- Source `randInt`: `min + rand.Intn(max-min)`. -/
def randInt (min max : Int) (r : Nat) : Option Int :=
  match Intn (max - min) r with
  | none => none
  | some v => some (min + v)

/-! ## The storage engine, as far as the driver uses it

`go.etcd.io/bbolt` is not part of `main.go`.  Its calls are modelled on
association lists: a bucket maps keys to values, a database maps bucket names
to buckets, `Put` replaces or adds one pair, `Delete` of an absent key changes
nothing, and `Update` commits the working copy when its body returns `nil` and
discards it otherwise.  The order in which a cursor walks a bucket plays no
role in the driver and is not modelled. -/

/-- Lookup in an association list: the value of the first pair with key `k`. -/
def assocGet {β : Type} (k : String) : List (String × β) → Option β
  | [] => none
  | (k1, v1) :: rest => if k1 = k then some v1 else assocGet k rest

/-- Replace the value stored under `k`, or add the pair at the end when `k` is
absent. -/
def assocPut {β : Type} (k : String) (v : β) : List (String × β) → List (String × β)
  | [] => [(k, v)]
  | (k1, v1) :: rest => if k1 = k then (k, v) :: rest else (k1, v1) :: assocPut k v rest

/-- Remove every pair with key `k`. -/
def assocDel {β : Type} (k : String) : List (String × β) → List (String × β)
  | [] => []
  | (k1, v1) :: rest => if k1 = k then assocDel k rest else (k1, v1) :: assocDel k rest

/-- A bucket: its key/value records. -/
abbrev Bucket := List (String × String)

/-- A database file, and also the working copy of a writable transaction: its
named top-level buckets. -/
abbrev DB := List (String × Bucket)

/-- The value stored under `key` in the bucket `name`, if any. -/
def DB.get (db : DB) (name key : String) : Option String :=
  match assocGet name db with
  | none => none
  | some bucket => assocGet key bucket

/-- Number of key/value records in all buckets. -/
def DB.recordCount (db : DB) : Nat :=
  (db.map (fun p => p.2.length)).sum

/-- Inputs of a run that the program does not control. -/
structure Env where
  /-- Raw outcomes of the random source, in the order they are drawn. -/
  draws : Nat → Nat
  /-- Reading of `time.Now()` in the call `generateKeyValue(b, i)`. -/
  now : Int → Int → String
  /-- Rendering of the elapsed time in the first progress message. -/
  elapsed : String
  /-- Error of `bucket.Put(key, _)` on the bucket of that name, if the store fails. -/
  putErr : String → String → Option String
  /-- Error of `tx.CreateBucketIfNotExists(name)`, if the store fails. -/
  createErr : String → Option String

/-- An environment in which no `Put` and no bucket creation fails. -/
def Env.faultFree (env : Env) : Prop :=
  (∀ name key, env.putErr name key = none) ∧ (∀ name, env.createErr name = none)

/-- A `*bbolt.Bucket`: `none` is the nil pointer, `some name` the bucket of that
name in the transaction. -/
abbrev BucketRef := Option String

/-- Modelled from the spec: the library call `tx.Bucket(name)`, which is not in
`main.go`; nil when there is no such bucket. -/
def Tx.Bucket (tx : DB) (name : String) : BucketRef :=
  match assocGet name tx with
  | none => none
  | some _ => some name

/-- Modelled from the spec: the library call `tx.CreateBucketIfNotExists(name)`,
which is not in `main.go`; it returns the bucket of that name and creates it
empty when it is absent, or fails with the error of the store. -/
def Tx.CreateBucketIfNotExists (env : Env) (tx : DB) (name : String) :
    Except String BucketRef × DB :=
  match env.createErr name with
  | some err => (Except.error err, tx)
  | none =>
    match assocGet name tx with
    | some _ => (Except.ok (some name), tx)
    | none => (Except.ok (some name), assocPut name [] tx)

/-- Modelled from the spec: the library call `bucket.Put(key, value)`, which is
not in `main.go`; it replaces or adds the record of `key`, or fails with the
error of the store and changes nothing; a nil receiver panics. -/
def Bucket.Put (env : Env) (tx : DB) (bucket : BucketRef) (key value : String) : Status × DB :=
  match bucket with
  | none => (Status.panicked "nil pointer dereference", tx)
  | some name =>
    match assocGet name tx with
    | none => (Status.panicked "nil pointer dereference", tx)
    | some records =>
      match env.putErr name key with
      | some err => (Status.error err, tx)
      | none => (Status.nil, assocPut name (assocPut key value records) tx)

/-- Modelled from the spec: the library call `bucket.Delete(key)`, which is not
in `main.go`; a nil receiver panics, an absent key is not an error. -/
def Bucket.Delete (tx : DB) (bucket : BucketRef) (key : String) : Status × DB :=
  match bucket with
  | none => (Status.panicked "nil pointer dereference", tx)
  | some name =>
    match assocGet name tx with
    | none => (Status.panicked "nil pointer dereference", tx)
    | some records => (Status.nil, assocPut name (assocDel key records) tx)

/-- Modelled from the spec: the library call `db.Update(fn)`, which is not in
`main.go`: `fn` runs on a working copy of the database; the
copy is committed when `fn` returns nil, and dropped when `fn` returns an error
or panics.  `σ` holds the variables of the caller that the closure `fn` changes;
a rollback does not restore them. -/
def DB.Update {σ : Type} (db : DB) (fn : DB → σ → Status × DB × σ) (vars : σ) :
    Status × DB × σ :=
  match fn db vars with
  | (Status.nil, tx, vars1) => (Status.nil, tx, vars1)
  | (st, _, vars1) => (st, db, vars1)

/-! ## The database helpers of `main.go` -/

/-- Body of the loop `for i := 0; i < txPerBucket; i++` of
`insertObjectIntoBucket`. -/
def insertStep (env : Env) (b : Int) (bucket : BucketRef) (i : Int) (tx : DB) : Status × DB :=
  match generateKeyValue (env.now b i) b i with
  | Except.error err => (Status.error err, tx)
  | Except.ok (key, value) => Bucket.Put env tx bucket key value

/-- Source `insertObjectIntoBucket`. -/
def insertObjectIntoBucket (env : Env) (tx : DB) (b : Int) : Status × DB :=
  match Tx.CreateBucketIfNotExists env tx (bucketName b) with
  | (Except.error err, tx1) => (Status.error err, tx1)
  | (Except.ok bucket, tx1) => forLoop 0 txPerBucket (insertStep env b bucket) tx1

/-- Source `deleteObjectsFromBucket`; `rng` counts the draws taken from the
random source so far. -/
def deleteObjectsFromBucket (env : Env) (tx : DB) (rng : Nat) : Status × DB × Nat :=
  match randInt 0 (numBuckets - 1) (env.draws rng) with
  | none => (Status.panicked "invalid argument to Intn", tx, rng + 1)
  | some randBucketIndex =>
    let bucketName := "bucket_" ++ fmtInt randBucketIndex
    let bucket := Tx.Bucket tx bucketName
    match randInt 0 txPerBucket (env.draws (rng + 1)) with
    | none => (Status.panicked "invalid argument to Intn", tx, rng + 2)
    | some randKeyIndex =>
      let key := keyPrefix ++ "_" ++ fmtInt randBucketIndex ++ "_" ++ fmtInt randKeyIndex
      match Bucket.Delete tx bucket key with
      | (st, tx1) => (st, tx1, rng + 2)

/-! ## `main` -/

/-- The variables of `main` and the two database files. -/
structure MainState where
  /-- Contents of the source database `./data.db`. -/
  db : DB
  /-- Contents of the destination database `./newData.db`. -/
  dstDb : DB
  /-- Number of draws taken from the random source. -/
  rng : Nat
  totalDeleted : Int
  /-- Lines written by `fmt.Printf`. -/
  stdout : List String

/-- One pass of the loop `for b := 0; b < numBuckets; b++` of `main`: the
closure stores the result of the helper in `err` and returns nil; `err` is then
overwritten with the result of `Update`. -/
def insertTx (env : Env) (b : Int) (db : DB) : Status × DB :=
  match DB.Update db (fun tx (_ : Unit) =>
      match insertObjectIntoBucket env tx b with
      | (Status.panicked msg, tx1) => (Status.panicked msg, tx1, ())
      | (_, tx1) => (Status.nil, tx1, ())) () with
  | (st, db1, _) => (st, db1)

/-- The insert loop of `main` with the message that follows it; a non-nil
status is the `log.Fatal` exit. -/
def insertPhase (env : Env) (s : MainState) : Status × MainState :=
  match forLoop 0 numBuckets (insertTx env) s.db with
  | (Status.nil, db1) =>
    (Status.nil, { s with
      db := db1
      stdout := s.stdout ++
        ["Stored " ++ fmtInt numItems ++ " objects in the database in " ++ env.elapsed ++ ".\n"] })
  | (st, db1) => (st, { s with db := db1 })

/-- One pass of the loop `for i := 0; i < 5000; i++` of `main`; the closure
changes `totalDeleted` and draws from the random source. -/
def deleteTx (env : Env) (s : MainState) : Status × MainState :=
  match DB.Update s.db (fun tx (vars : Nat × Int) =>
      match deleteObjectsFromBucket env tx vars.1 with
      | (Status.panicked msg, tx1, rng1) => (Status.panicked msg, tx1, (rng1, vars.2))
      | (_, tx1, rng1) => (Status.nil, tx1, (rng1, vars.2 + 1))) (s.rng, s.totalDeleted) with
  | (st, db1, (rng1, total1)) => (st, { s with db := db1, rng := rng1, totalDeleted := total1 })

/-- The delete loop of `main` with the message that follows it. -/
def deletePhase (env : Env) (s : MainState) : Status × MainState :=
  match forLoop 0 5000 (fun _ s1 => deleteTx env s1) { s with totalDeleted := 0 } with
  | (Status.nil, s1) =>
    (Status.nil, { s1 with
      stdout := s1.stdout ++
        ["Deleted " ++ fmtInt s1.totalDeleted ++ " random objects from the database.\n"] })
  | (st, s1) => (st, s1)

/-- Body of the loop inside the last transaction of `main`. -/
def addBackStep (env : Env) (i : Int) (st : DB × Nat) : Status × (DB × Nat) :=
  match randInt 0 numBuckets (env.draws st.2) with
  | none => (Status.panicked "invalid argument to Intn", (st.1, st.2 + 1))
  | some b =>
    let bucket := Tx.Bucket st.1 (bucketName b)
    match generateKeyValue (env.now b i) b i with
    | Except.error err => (Status.error err, (st.1, st.2 + 1))
    | Except.ok (key, value) =>
      match Bucket.Put env st.1 bucket key value with
      | (status, tx1) => (status, (tx1, st.2 + 1))

/-- The closure of the last `dstDb.Update` of `main`. -/
def addBackBody (env : Env) (tx : DB) (rng : Nat) : Status × DB × Nat :=
  forLoop txPerBucket (txPerBucket + 5000) (addBackStep env) (tx, rng)

/-- The last transaction of `main` with the message that follows it. -/
def addBackPhase (env : Env) (s : MainState) : Status × MainState :=
  match DB.Update s.dstDb (addBackBody env) s.rng with
  | (Status.nil, dst1, rng1) =>
    (Status.nil, { s with
      dstDb := dst1
      rng := rng1
      stdout := s.stdout ++
        ["Stored " ++ fmtInt s.totalDeleted ++ " new objects in the database.\n"] })
  | (st, dst1, rng1) => (st, { s with dstDb := dst1, rng := rng1 })

/-! ## Compaction

`bbolt.Compact` is library code; the model follows section 4.5 of the
specification. -/

/-- Modelled from the spec: the part of `bbolt.Compact` that copies the records
of one source bucket, which is not in `main.go`; every key/value pair is
re-inserted into the destination bucket with a `Put`. -/
def compactBucket (env : Env) (bucket : BucketRef) : Bucket → DB → Status × DB
  | [], dst => (Status.nil, dst)
  | (key, value) :: rest, dst =>
    match Bucket.Put env dst bucket key value with
    | (Status.nil, dst1) => compactBucket env bucket rest dst1
    | (st, dst1) => (st, dst1)

/-- Modelled from the spec: the traversal of `bbolt.Compact` over the buckets of
the source, which is not in `main.go`; every bucket is created in the
destination if absent and its records are copied. -/
def compactWalk (env : Env) : DB → DB → Status × DB
  | [], dst => (Status.nil, dst)
  | (name, records) :: rest, dst =>
    match Tx.CreateBucketIfNotExists env dst name with
    | (Except.error err, dst1) => (Status.error err, dst1)
    | (Except.ok bucket, dst1) =>
      match compactBucket env bucket records dst1 with
      | (Status.nil, dst2) => compactWalk env rest dst2
      | (st, dst2) => (st, dst2)

/-- Modelled from the spec: `bbolt.Compact(dst, src, 0)`, which is not in
`main.go`; it reads the source and re-inserts every live (bucket, key, value)
triple into the destination in one write transaction.  The result is the status
and the destination; the source is only read. -/
def Compact (env : Env) (dst src : DB) : Status × DB :=
  match DB.Update dst (fun tx (_ : Unit) =>
      match compactWalk env src tx with
      | (st, tx1) => (st, tx1, ())) () with
  | (st, dst1, _) => (st, dst1)

/-- The compaction step of `main`: `bbolt.Compact(dstDb, db, 0)`. -/
def compactPhase (env : Env) (s : MainState) : Status × MainState :=
  match Compact env s.dstDb s.db with
  | (st, dst1) => (st, { s with dstDb := dst1 })

/-- Source `main`, from the two opened databases on; a phase that ends with a
non-nil status ends the program (`log.Fatal` or a panic). -/
def main (env : Env) (s : MainState) : Status × MainState :=
  match insertPhase env s with
  | (Status.nil, s1) =>
    match deletePhase env s1 with
    | (Status.nil, s2) =>
      match compactPhase env s2 with
      | (Status.nil, s3) => addBackPhase env s3
      | r => r
    | r => r
  | r => r

/-! ## Notions used to state the results -/

/-- Value of a decimal digit character. -/
def digitVal (c : Char) : Nat := c.toNat - 48

/-- Value of a string of decimal digits, most significant digit first. -/
def decodeDigits (start : Nat) (cs : List Char) : Nat :=
  cs.foldl (fun acc c => 10 * acc + digitVal c) start

/-- The key text of `generateKeyValue(b, i)`. -/
def keyOf (b i : Int) : String :=
  keyPrefix ++ "_" ++ fmtInt b ++ "_" ++ fmtInt i

/-- The value text of `generateKeyValue(b, i)` when the clock reads `now`. -/
def valueOf (now : String) (i : Int) : String :=
  "\x7b\"Title\":\"" ++ ("content" ++ fmtInt i) ++ "\",\"Createdtime\":\"" ++ now ++ "\"\x7d"

/-- The records `generateKeyValue(b, lo)`, ..., `generateKeyValue(b, lo + n - 1)`. -/
def bucketRecords (env : Env) (b : Int) : Int → Nat → Bucket
  | _, 0 => []
  | lo, n + 1 => (keyOf b lo, valueOf (env.now b lo) lo) :: bucketRecords env b (lo + 1) n

/-- The buckets `lo`, ..., `lo + n - 1`, each with its `txPerBucket` records. -/
def filledBuckets (env : Env) : Int → Nat → DB
  | _, 0 => []
  | lo, n + 1 => (bucketName lo, bucketRecords env lo 0 txPerBucket.toNat) :: filledBuckets env (lo + 1) n

/-- Keys are unique within every bucket, and bucket names are unique. -/
def DB.wellFormed (db : DB) : Prop :=
  (db.map Prod.fst).Nodup ∧ ∀ p ∈ db, (p.2.map Prod.fst).Nodup

/-- A destination as the insert phase leaves a database: every bucket of the
driver is there, and every key is the key of some `generateKeyValue(b, j)`
with `0 <= j < txPerBucket`. -/
def DB.dstReady (db : DB) : Prop :=
  (∀ b : Int, 0 ≤ b → b < numBuckets → ∃ records, assocGet (bucketName b) db = some records) ∧
  (∀ name records, assocGet name db = some records →
    ∀ p ∈ records, ∃ b j : Int, 0 ≤ j ∧ j < txPerBucket ∧ p.1 = keyOf b j)

/-- Invariant of the loop in the last transaction of `main`, at loop variable
`i`, for a transaction that started on `tx0` with `rng0` draws taken: the
buckets of the driver exist, every key has a key index below `i`, one record
was added per pass, and no record of `tx0` was changed. -/
def addBackInv (tx0 : DB) (rng0 : Nat) (i : Int) (st : DB × Nat) : Prop :=
  txPerBucket ≤ i ∧
  (∀ b : Int, 0 ≤ b → b < numBuckets → ∃ records, assocGet (bucketName b) st.1 = some records) ∧
  (∀ name records, assocGet name st.1 = some records →
    ∀ p ∈ records, ∃ b j : Int, 0 ≤ j ∧ j < i ∧ p.1 = keyOf b j) ∧
  DB.recordCount st.1 = DB.recordCount tx0 + (i - txPerBucket).toNat ∧
  (∀ name key value, DB.get tx0 name key = some value → DB.get st.1 name key = some value) ∧
  (∀ name key, DB.get st.1 name key ≠ none → DB.get tx0 name key ≠ none ∨
    ∃ b j : Int, 0 ≤ b ∧ b < numBuckets ∧ txPerBucket ≤ j ∧ j < i ∧
      name = bucketName b ∧ key = keyOf b j) ∧
  st.2 = rng0 + (i - txPerBucket).toNat

/-- A run without store faults in which the random source always yields 0. -/
def quietEnv : Env :=
  { draws := fun _ => 0
    now := fun _ _ => "2024-05-01T10:00:00Z"
    elapsed := "1s"
    putErr := fun _ _ => none
    createErr := fun _ => none }

/-- A run in which the `Put` of the key `key_0_1` into `bucket_0` fails. -/
def failingPutEnv : Env :=
  { quietEnv with
    putErr := fun name key =>
      if name = "bucket_0" ∧ key = "key_0_1" then some "put failed" else none }

/-- A run without store faults in which the random source always yields 1. -/
def oneDrawEnv : Env :=
  { quietEnv with draws := fun _ => 1 }

/-- State of `main` after the insert loop. -/
def afterInsert (env : Env) (s : MainState) : MainState :=
  (insertPhase env s).2

/-- State of `main` after the insert loop and the first delete transaction. -/
def afterFirstDelete (env : Env) (s : MainState) : MainState :=
  (deleteTx env { afterInsert env s with totalDeleted := 0 }).2

/-! ## Decimal rendering: `%d` is injective and never writes an underscore -/

theorem digitVal_digitChar (d : Nat) (h : d < 10) : digitVal (Nat.digitChar d) = d := by
  interval_cases d <;> rfl

theorem digitChar_ne_underscore (d : Nat) (h : d < 10) : Nat.digitChar d ≠ Char.ofNat 95 := by
  interval_cases d <;> decide

theorem decodeDigits_toDigitsCore (fuel : Nat) :
    ∀ (n : Nat) (acc : List Char), n < fuel →
      decodeDigits 0 (Nat.toDigitsCore 10 fuel n acc) = decodeDigits n acc := by
  induction fuel with
  | zero => intro n acc h; omega
  | succ fuel ih =>
    intro n acc h
    have hd : digitVal (Nat.digitChar (n % 10)) = n % 10 :=
      digitVal_digitChar _ (Nat.mod_lt _ (by decide))
    simp only [Nat.toDigitsCore]
    split
    · rename_i h0
      have hn : n % 10 = n := Nat.mod_eq_of_lt (by omega)
      rw [hn] at hd
      simp [decodeDigits, List.foldl_cons, hd, hn]
    · rename_i h0
      rw [ih (n / 10) _ (by omega)]
      simp only [decodeDigits, List.foldl_cons, hd]
      congr 1
      omega

theorem toDigitsCore_no_underscore (fuel : Nat) :
    ∀ (n : Nat) (acc : List Char), (∀ c ∈ acc, c ≠ Char.ofNat 95) →
      ∀ c ∈ Nat.toDigitsCore 10 fuel n acc, c ≠ Char.ofNat 95 := by
  induction fuel with
  | zero => intro n acc h c hc; simp only [Nat.toDigitsCore] at hc; exact h c hc
  | succ fuel ih =>
    intro n acc h
    have hacc : ∀ c ∈ Nat.digitChar (n % 10) :: acc, c ≠ Char.ofNat 95 := by
      intro c hc
      rcases List.mem_cons.1 hc with rfl | hc
      · exact digitChar_ne_underscore _ (Nat.mod_lt _ (by decide))
      · exact h c hc
    simp only [Nat.toDigitsCore]
    split
    · exact hacc
    · exact ih _ _ hacc

theorem decodeDigits_repr (n : Nat) : decodeDigits 0 (Nat.repr n).data = n := by
  have h := decodeDigits_toDigitsCore (n + 1) n [] (Nat.lt_succ_self n)
  simpa [Nat.repr, Nat.toDigits, List.asString, decodeDigits] using h

theorem repr_no_underscore (n : Nat) : ∀ c ∈ (Nat.repr n).data, c ≠ Char.ofNat 95 := by
  have h := toDigitsCore_no_underscore (n + 1) n [] (by simp)
  simpa [Nat.repr, Nat.toDigits, List.asString] using h

theorem fmtInt_ofNat (n : Nat) : fmtInt (n : Int) = Nat.repr n := rfl

theorem fmtInt_nat_inj {a b : Nat} (h : fmtInt (a : Int) = fmtInt (b : Int)) : a = b := by
  rw [fmtInt_ofNat, fmtInt_ofNat] at h
  have := congrArg (fun s => decodeDigits 0 s.data) h
  simpa [decodeDigits_repr] using this

/-- On non-negative numbers `%d` is injective. -/
theorem fmtInt_inj {a b : Int} (ha : 0 ≤ a) (hb : 0 ≤ b) (h : fmtInt a = fmtInt b) : a = b := by
  obtain ⟨x, rfl⟩ := Int.eq_ofNat_of_zero_le ha
  obtain ⟨y, rfl⟩ := Int.eq_ofNat_of_zero_le hb
  exact congrArg _ (fmtInt_nat_inj h)

/-- The rendering of an `int` holds no underscore. -/
theorem fmtInt_no_underscore (a : Int) : ∀ c ∈ (fmtInt a).data, c ≠ Char.ofNat 95 := by
  cases a with
  | ofNat n => exact repr_no_underscore n
  | negSucc n =>
    intro c hc
    have hs : fmtInt (Int.negSucc n) = "-" ++ Nat.repr (n + 1) := rfl
    rw [hs, String.data_append] at hc
    rcases List.mem_append.1 hc with h | h
    · have : c = Char.ofNat 45 := by simpa using h
      rw [this]; decide
    · exact repr_no_underscore _ c h

theorem string_append_left_cancel {p a b : String} (h : p ++ a = p ++ b) : a = b := by
  have := congrArg String.data h
  rw [String.data_append, String.data_append] at this
  exact String.ext (List.append_cancel_left this)

/-- Two texts cut at their first separator agree piecewise. -/
theorem split_at_sep {c : Char} : ∀ (l1 l2 r1 r2 : List Char), c ∉ l1 → c ∉ l2 →
    l1 ++ c :: r1 = l2 ++ c :: r2 → l1 = l2 ∧ r1 = r2 := by
  intro l1
  induction l1 with
  | nil =>
    intro l2 r1 r2 _ h2 h
    cases l2 with
    | nil => simpa using h
    | cons x xs =>
      simp only [List.nil_append, List.cons_append, List.cons.injEq] at h
      exact absurd (h.1 ▸ List.mem_cons_self _ _) h2
  | cons y ys ih =>
    intro l2 r1 r2 h1 h2 h
    cases l2 with
    | nil =>
      simp only [List.nil_append, List.cons_append, List.cons.injEq] at h
      exact absurd (h.1 ▸ List.mem_cons_self _ _) h1
    | cons x xs =>
      simp only [List.cons_append, List.cons.injEq] at h
      have := ih xs r1 r2 (fun hm => h1 (List.mem_cons_of_mem _ hm))
        (fun hm => h2 (List.mem_cons_of_mem _ hm)) h.2
      exact ⟨by rw [h.1, this.1], this.2⟩

theorem generateKeyValue_ok (now : String) (b i : Int) :
    ∃ value, generateKeyValue now b i = Except.ok (keyOf b i, value) :=
  ⟨_, rfl⟩

theorem bucketName_inj {a b : Int} (ha : 0 ≤ a) (hb : 0 ≤ b)
    (h : bucketName a = bucketName b) : a = b := by
  unfold bucketName at h
  exact fmtInt_inj ha hb (string_append_left_cancel h)

/-- Equal keys have equal key index, whatever the bucket indices are. -/
theorem keyOf_index_inj {b1 b2 i j : Int} (hi : 0 ≤ i) (hj : 0 ≤ j)
    (h : keyOf b1 i = keyOf b2 j) : i = j := by
  unfold keyOf at h
  simp only [String.append_assoc] at h
  have h1 := string_append_left_cancel (string_append_left_cancel h)
  have h2 := congrArg String.data h1
  simp only [String.data_append] at h2
  have h3 := split_at_sep (fmtInt b1).data (fmtInt b2).data (fmtInt i).data (fmtInt j).data
    (fun hm => fmtInt_no_underscore b1 _ hm rfl) (fun hm => fmtInt_no_underscore b2 _ hm rfl)
    h2
  exact fmtInt_inj hi hj (String.ext h3.2)

/-! ## Association lists -/

theorem assocGet_assocPut_self {β : Type} (k : String) (v : β) (l : List (String × β)) :
    assocGet k (assocPut k v l) = some v := by
  induction l with
  | nil => simp [assocPut, assocGet]
  | cons p rest ih =>
    obtain ⟨k1, v1⟩ := p
    by_cases h : k1 = k
    · simp [assocPut, assocGet, h]
    · simp [assocPut, assocGet, h, ih]

theorem assocGet_assocPut_ne {β : Type} {k k2 : String} (v : β) (l : List (String × β))
    (h : k2 ≠ k) : assocGet k2 (assocPut k v l) = assocGet k2 l := by
  induction l with
  | nil => simp [assocPut, assocGet, Ne.symm h]
  | cons p rest ih =>
    obtain ⟨k1, v1⟩ := p
    by_cases h1 : k1 = k
    · subst h1
      simp [assocPut, assocGet, Ne.symm h]
    · by_cases h2 : k1 = k2
      · subst h2
        simp [assocPut, assocGet, h1]
      · simp [assocPut, assocGet, h1, h2, ih]

theorem assocPut_absent {β : Type} {k : String} (v : β) {l : List (String × β)}
    (h : assocGet k l = none) : assocPut k v l = l ++ [(k, v)] := by
  induction l with
  | nil => rfl
  | cons p rest ih =>
    obtain ⟨k1, v1⟩ := p
    by_cases h1 : k1 = k
    · simp [assocGet, h1] at h
    · simp only [assocGet, h1, if_false] at h
      simp [assocPut, h1, ih h]

theorem assocPut_assocPut {β : Type} (k : String) (v w : β) (l : List (String × β)) :
    assocPut k v (assocPut k w l) = assocPut k v l := by
  induction l with
  | nil => simp [assocPut]
  | cons p rest ih =>
    obtain ⟨k1, v1⟩ := p
    by_cases h1 : k1 = k
    · simp [assocPut, h1]
    · simp [assocPut, h1, ih]

theorem assocPut_same {β : Type} {k : String} {v : β} {l : List (String × β)}
    (h : assocGet k l = some v) : assocPut k v l = l := by
  induction l with
  | nil => simp [assocGet] at h
  | cons p rest ih =>
    obtain ⟨k1, v1⟩ := p
    by_cases h1 : k1 = k
    · simp only [assocGet, h1, if_true, Option.some.injEq] at h
      simp [assocPut, h1, h]
    · simp only [assocGet, h1, if_false] at h
      simp [assocPut, h1, ih h]

theorem assocGet_eq_none_iff {β : Type} (k : String) (l : List (String × β)) :
    assocGet k l = none ↔ ∀ p ∈ l, p.1 ≠ k := by
  induction l with
  | nil => simp [assocGet]
  | cons p rest ih =>
    obtain ⟨k1, v1⟩ := p
    by_cases h1 : k1 = k
    · simp [assocGet, h1]
    · simp [assocGet, h1, ih]

theorem assocGet_mem {β : Type} {k : String} {v : β} {l : List (String × β)}
    (h : assocGet k l = some v) : (k, v) ∈ l := by
  induction l with
  | nil => simp [assocGet] at h
  | cons p rest ih =>
    obtain ⟨k1, v1⟩ := p
    by_cases h1 : k1 = k
    · simp only [assocGet, h1, if_true, Option.some.injEq] at h
      simp [h1, h]
    · simp only [assocGet, h1, if_false] at h
      exact List.mem_cons_of_mem _ (ih h)

theorem assocGet_append_none {β : Type} {k : String} {l : List (String × β)}
    (m : List (String × β)) (h : assocGet k l = none) : assocGet k (l ++ m) = assocGet k m := by
  induction l with
  | nil => rfl
  | cons p rest ih =>
    obtain ⟨k1, v1⟩ := p
    by_cases h1 : k1 = k
    · simp [assocGet, h1] at h
    · simp only [assocGet, h1, if_false] at h
      simp [assocGet, h1, ih h]

theorem assocGet_append_some {β : Type} {k : String} {v : β} {l : List (String × β)}
    (m : List (String × β)) (h : assocGet k l = some v) : assocGet k (l ++ m) = some v := by
  induction l with
  | nil => simp [assocGet] at h
  | cons p rest ih =>
    obtain ⟨k1, v1⟩ := p
    by_cases h1 : k1 = k
    · simpa [assocGet, h1] using h
    · simp only [assocGet, h1, if_false] at h
      simp [assocGet, h1, ih h]

theorem assocDel_absent {β : Type} {k : String} {l : List (String × β)}
    (h : assocGet k l = none) : assocDel k l = l := by
  induction l with
  | nil => rfl
  | cons p rest ih =>
    obtain ⟨k1, v1⟩ := p
    by_cases h1 : k1 = k
    · simp [assocGet, h1] at h
    · simp only [assocGet, h1, if_false] at h
      simp [assocDel, h1, ih h]

theorem assocGet_assocDel_self {β : Type} (k : String) (l : List (String × β)) :
    assocGet k (assocDel k l) = none := by
  induction l with
  | nil => rfl
  | cons p rest ih =>
    obtain ⟨k1, v1⟩ := p
    by_cases h1 : k1 = k
    · simp [assocDel, h1, ih]
    · simp [assocDel, assocGet, h1, ih]

theorem assocGet_assocDel_ne {β : Type} {k k2 : String} (l : List (String × β)) (h : k2 ≠ k) :
    assocGet k2 (assocDel k l) = assocGet k2 l := by
  induction l with
  | nil => rfl
  | cons p rest ih =>
    obtain ⟨k1, v1⟩ := p
    by_cases h1 : k1 = k
    · subst h1
      simp [assocDel, assocGet, Ne.symm h, ih]
    · by_cases h2 : k1 = k2
      · subst h2
        simp [assocDel, assocGet, h1]
      · simp [assocDel, assocGet, h1, h2, ih]

theorem length_assocDel_le {β : Type} (k : String) (l : List (String × β)) :
    (assocDel k l).length ≤ l.length := by
  induction l with
  | nil => simp [assocDel]
  | cons p rest ih =>
    obtain ⟨k1, v1⟩ := p
    by_cases h1 : k1 = k
    · simp [assocDel, h1]; omega
    · simp [assocDel, h1]; omega

theorem assocGet_append_single_ne {β : Type} {k k2 : String} (v : β) (l : List (String × β))
    (h : k2 ≠ k) : assocGet k2 (l ++ [(k, v)]) = assocGet k2 l := by
  cases hg : assocGet k2 l with
  | none => rw [assocGet_append_none _ hg]; simp [assocGet, Ne.symm h]
  | some w => exact assocGet_append_some _ hg

theorem length_assocDel_nodup {β : Type} {k : String} {v : β} :
    ∀ (l : List (String × β)), (l.map Prod.fst).Nodup → assocGet k l = some v →
      (assocDel k l).length + 1 = l.length := by
  intro l
  induction l with
  | nil => intro _ h; simp [assocGet] at h
  | cons p rest ih =>
    obtain ⟨k1, v1⟩ := p
    intro hnd h
    simp only [List.map_cons, List.nodup_cons] at hnd
    by_cases h1 : k1 = k
    · subst h1
      have habs : assocGet k1 rest = none := by
        rw [assocGet_eq_none_iff]
        intro p hp heq
        exact hnd.1 (List.mem_map.2 ⟨p, hp, heq⟩)
      simp [assocDel, assocDel_absent habs]
    · simp only [assocGet, h1, if_false] at h
      simp [assocDel, h1, ih hnd.2 h]

theorem recordCount_assocPut {name : String} {old : Bucket} (new : Bucket) {db : DB}
    (h : assocGet name db = some old) :
    DB.recordCount (assocPut name new db) + old.length = DB.recordCount db + new.length := by
  induction db with
  | nil => simp [assocGet] at h
  | cons p rest ih =>
    obtain ⟨k1, v1⟩ := p
    by_cases h1 : k1 = name
    · simp only [assocGet, h1, if_true, Option.some.injEq] at h
      subst h
      simp [assocPut, h1, DB.recordCount]
      omega
    · simp only [assocGet, h1, if_false] at h
      have := ih h
      simp only [DB.recordCount] at this
      simp [assocPut, h1, DB.recordCount]
      omega

theorem recordCount_append (a b : DB) :
    DB.recordCount (a ++ b) = DB.recordCount a + DB.recordCount b := by
  simp [DB.recordCount]

/-! ## Loops -/

theorem forLoopAux_succ {σ : Type} (body : Int → σ → Status × σ) (n : Nat) (i : Int) (s : σ) :
    forLoopAux body (n + 1) i s =
      match body i s with
      | (Status.nil, s1) => forLoopAux body n (i + 1) s1
      | (st, s1) => (st, s1) := rfl

/-- Invariant rule for the `for` loop: a body that keeps `P` and returns nil
lets the loop run to its end. -/
theorem forLoopAux_inv {σ : Type} (body : Int → σ → Status × σ) (P : Int → σ → Prop)
    (hstep : ∀ i s, P i s → (body i s).1 = Status.nil ∧ P (i + 1) (body i s).2) :
    ∀ (n : Nat) (i : Int) (s : σ), P i s →
      (forLoopAux body n i s).1 = Status.nil ∧ P (i + n) (forLoopAux body n i s).2 := by
  intro n
  induction n with
  | zero => intro i s h; simpa [forLoopAux] using h
  | succ n ih =>
    intro i s h
    obtain ⟨h1, h2⟩ := hstep i s h
    have hb : body i s = (Status.nil, (body i s).2) := by rw [← h1]
    have := ih (i + 1) (body i s).2 h2
    rw [forLoopAux, hb]
    simp only
    have hcast : i + ((n + 1 : Nat) : Int) = i + 1 + (n : Int) := by push_cast; ring
    rw [hcast]
    exact this

/-! ## The insert phase -/

theorem txPerBucket_eq : txPerBucket = 2000 := by decide

theorem bucketRecords_length (env : Env) (b : Int) :
    ∀ (n : Nat) (lo : Int), (bucketRecords env b lo n).length = n := by
  intro n
  induction n with
  | zero => intro lo; rfl
  | succ n ih => intro lo; simp [bucketRecords, ih]

theorem bucketRecords_mem (env : Env) (b : Int) :
    ∀ (n : Nat) (lo : Int) (p : String × String), p ∈ bucketRecords env b lo n →
      ∃ k : Nat, k < n ∧ p = (keyOf b (lo + k), valueOf (env.now b (lo + k)) (lo + k)) := by
  intro n
  induction n with
  | zero => intro lo p hp; simp [bucketRecords] at hp
  | succ n ih =>
    intro lo p hp
    simp only [bucketRecords, List.mem_cons] at hp
    rcases hp with rfl | hp
    · exact ⟨0, by omega, by simp⟩
    · obtain ⟨k, hk, rfl⟩ := ih (lo + 1) p hp
      refine ⟨k + 1, by omega, ?_⟩
      have : lo + 1 + (k : Int) = lo + ((k + 1 : Nat) : Int) := by push_cast; ring
      rw [this]

theorem assocGet_bucketRecords_none (env : Env) (b : Int) {lo i : Int} {n : Nat}
    (hlo : 0 ≤ lo) (hi0 : 0 ≤ i) (hi : i < lo ∨ lo + n ≤ i) :
    assocGet (keyOf b i) (bucketRecords env b lo n) = none := by
  rw [assocGet_eq_none_iff]
  intro p hp heq
  obtain ⟨k, hk, rfl⟩ := bucketRecords_mem env b n lo p hp
  have := keyOf_index_inj (by omega) hi0 heq
  omega

theorem assocGet_bucketRecords_some (env : Env) (b : Int) :
    ∀ (n : Nat) (lo : Int) (k : Nat), 0 ≤ lo → k < n →
      assocGet (keyOf b (lo + k)) (bucketRecords env b lo n) =
        some (valueOf (env.now b (lo + k)) (lo + k)) := by
  intro n
  induction n with
  | zero => intro lo k _ hk; omega
  | succ n ih =>
    intro lo k hlo hk
    cases k with
    | zero => simp [bucketRecords, assocGet]
    | succ k =>
      have hne : keyOf b lo ≠ keyOf b (lo + ((k + 1 : Nat) : Int)) := by
        intro h
        have := keyOf_index_inj hlo (by omega) h
        omega
      have hc : lo + ((k + 1 : Nat) : Int) = lo + 1 + (k : Int) := by push_cast; ring
      simp only [bucketRecords, assocGet, hne, if_false]
      rw [hc]
      exact ih (lo + 1) k (by omega) (by omega)

theorem bucketRecords_nodup (env : Env) (b : Int) :
    ∀ (n : Nat) (lo : Int), 0 ≤ lo → ((bucketRecords env b lo n).map Prod.fst).Nodup := by
  intro n
  induction n with
  | zero => intro lo _; simp [bucketRecords]
  | succ n ih =>
    intro lo hlo
    simp only [bucketRecords, List.map_cons, List.nodup_cons]
    refine ⟨?_, ih (lo + 1) (by omega)⟩
    intro hm
    obtain ⟨p, hp, hpk⟩ := List.mem_map.1 hm
    have hnone := @assocGet_bucketRecords_none env b (lo + 1) lo n
      (by omega) hlo (Or.inl (by omega))
    rw [assocGet_eq_none_iff] at hnone
    exact hnone p hp hpk

theorem insertStep_eq (env : Env) (b : Int) (bucket : BucketRef) (i : Int) (tx : DB) :
    insertStep env b bucket i tx
      = Bucket.Put env tx bucket (keyOf b i) (valueOf (env.now b i) i) := rfl

theorem Bucket_Put_ok (env : Env) {tx : DB} {name : String} {records : Bucket}
    (key value : String) (hb : assocGet name tx = some records)
    (hput : env.putErr name key = none) :
    Bucket.Put env tx (some name) key value
      = (Status.nil, assocPut name (assocPut key value records) tx) := by
  simp [Bucket.Put, hb, hput]

/-- The loop of `insertObjectIntoBucket`, when no `Put` on the bucket fails and
the keys it writes are new: it appends the records in order. -/
theorem insertLoop_spec (env : Env) (name : String) (b : Int)
    (hput : ∀ key, env.putErr name key = none) :
    ∀ (n : Nat) (lo : Int) (tx : DB) (records : Bucket), 0 ≤ lo →
      assocGet name tx = some records →
      (∀ p ∈ records, ∀ k : Nat, k < n → p.1 ≠ keyOf b (lo + k)) →
      forLoopAux (insertStep env b (some name)) n lo tx
        = (Status.nil, assocPut name (records ++ bucketRecords env b lo n) tx) := by
  intro n
  induction n with
  | zero =>
    intro lo tx records _ hb _
    simp [forLoopAux, bucketRecords, assocPut_same hb]
  | succ n ih =>
    intro lo tx records hlo hb hnew
    have habs : assocGet (keyOf b lo) records = none := by
      rw [assocGet_eq_none_iff]
      intro p hp
      simpa using hnew p hp 0 (by omega)
    rw [forLoopAux, insertStep_eq, Bucket_Put_ok env _ _ hb (hput _), assocPut_absent _ habs]
    simp only
    rw [ih (lo + 1) _ (records ++ [(keyOf b lo, valueOf (env.now b lo) lo)]) (by omega)
      (assocGet_assocPut_self _ _ _)]
    · rw [assocPut_assocPut]
      simp [bucketRecords]
    · intro p hp k hk
      have hc : lo + 1 + (k : Int) = lo + ((k + 1 : Nat) : Int) := by push_cast; ring
      rcases List.mem_append.1 hp with hp | hp
      · rw [hc]; exact hnew p hp (k + 1) (by omega)
      · have hpe : p = (keyOf b lo, valueOf (env.now b lo) lo) := by simpa using hp
        rw [hpe]
        intro h
        have := keyOf_index_inj hlo (by omega) h
        omega

/-- With no store fault, `insertObjectIntoBucket(tx, b)` on a transaction in
which the bucket is absent or empty returns nil and leaves the bucket with the
records of the key indices `0`, ..., `txPerBucket - 1`. -/
theorem insertObjectIntoBucket_spec (env : Env) (hf : env.faultFree) (tx : DB) (b : Int)
    (hb : assocGet (bucketName b) tx = none ∨ assocGet (bucketName b) tx = some []) :
    insertObjectIntoBucket env tx b
      = (Status.nil, assocPut (bucketName b) (bucketRecords env b 0 txPerBucket.toNat) tx) := by
  have hloop := insertLoop_spec env (bucketName b) b (fun key => hf.1 _ key) txPerBucket.toNat 0
  rcases hb with hb | hb
  · simp only [insertObjectIntoBucket, Tx.CreateBucketIfNotExists, hf.2, hb, forLoop, sub_zero]
    rw [hloop _ [] (le_refl _) (assocGet_assocPut_self _ _ _) (by simp), assocPut_assocPut]
    simp
  · simp only [insertObjectIntoBucket, Tx.CreateBucketIfNotExists, hf.2, hb, forLoop, sub_zero]
    rw [hloop _ [] (le_refl _) hb (by simp)]
    simp

theorem insertTx_spec (env : Env) (hf : env.faultFree) (db : DB) (b : Int)
    (hb : assocGet (bucketName b) db = none) :
    insertTx env b db
      = (Status.nil, db ++ [(bucketName b, bucketRecords env b 0 txPerBucket.toNat)]) := by
  simp [insertTx, DB.Update, insertObjectIntoBucket_spec env hf db b (Or.inl hb),
    assocPut_absent _ hb]

theorem insertPhaseLoop_spec (env : Env) (hf : env.faultFree) :
    ∀ (n : Nat) (lo : Int) (db : DB), 0 ≤ lo →
      (∀ k : Nat, k < n → assocGet (bucketName (lo + k)) db = none) →
      forLoopAux (insertTx env) n lo db = (Status.nil, db ++ filledBuckets env lo n) := by
  intro n
  induction n with
  | zero => intro lo db _ _; simp [forLoopAux, filledBuckets]
  | succ n ih =>
    intro lo db hlo habs
    have h0 : assocGet (bucketName lo) db = none := by simpa using habs 0 (by omega)
    rw [forLoopAux, insertTx_spec env hf db lo h0]
    simp only
    rw [ih (lo + 1) _ (by omega)]
    · simp [filledBuckets]
    · intro k hk
      have hc : lo + 1 + (k : Int) = lo + ((k + 1 : Nat) : Int) := by push_cast; ring
      rw [assocGet_append_none _ (by rw [hc]; exact habs (k + 1) (by omega))]
      have hne : bucketName lo ≠ bucketName (lo + 1 + (k : Int)) := by
        intro h
        have := bucketName_inj hlo (by omega) h
        omega
      simp [assocGet, hne]

theorem filledBuckets_length (env : Env) :
    ∀ (n : Nat) (lo : Int), (filledBuckets env lo n).length = n := by
  intro n
  induction n with
  | zero => intro lo; rfl
  | succ n ih => intro lo; simp [filledBuckets, ih]

theorem filledBuckets_mem (env : Env) :
    ∀ (n : Nat) (lo : Int) (p : String × Bucket), p ∈ filledBuckets env lo n →
      ∃ k : Nat, k < n ∧
        p = (bucketName (lo + k), bucketRecords env (lo + k) 0 txPerBucket.toNat) := by
  intro n
  induction n with
  | zero => intro lo p hp; simp [filledBuckets] at hp
  | succ n ih =>
    intro lo p hp
    simp only [filledBuckets, List.mem_cons] at hp
    rcases hp with rfl | hp
    · exact ⟨0, by omega, by simp⟩
    · obtain ⟨k, hk, rfl⟩ := ih (lo + 1) p hp
      refine ⟨k + 1, by omega, ?_⟩
      have : lo + 1 + (k : Int) = lo + ((k + 1 : Nat) : Int) := by push_cast; ring
      rw [this]

theorem filledBuckets_names_nodup (env : Env) :
    ∀ (n : Nat) (lo : Int), 0 ≤ lo → ((filledBuckets env lo n).map Prod.fst).Nodup := by
  intro n
  induction n with
  | zero => intro lo _; simp [filledBuckets]
  | succ n ih =>
    intro lo hlo
    simp only [filledBuckets, List.map_cons, List.nodup_cons]
    refine ⟨?_, ih (lo + 1) (by omega)⟩
    intro hm
    obtain ⟨p, hp, hpk⟩ := List.mem_map.1 hm
    obtain ⟨k, hk, rfl⟩ := filledBuckets_mem env n (lo + 1) p hp
    have := bucketName_inj (by omega) hlo hpk
    omega

theorem filledBuckets_recordCount (env : Env) :
    ∀ (n : Nat) (lo : Int),
      DB.recordCount (filledBuckets env lo n) = n * txPerBucket.toNat := by
  intro n
  induction n with
  | zero => intro lo; simp [filledBuckets, DB.recordCount]
  | succ n ih =>
    intro lo
    have := ih (lo + 1)
    simp only [DB.recordCount] at this
    simp only [filledBuckets, DB.recordCount, List.map_cons, List.sum_cons, this,
      bucketRecords_length]
    ring

theorem assocGet_filledBuckets (env : Env) :
    ∀ (n : Nat) (lo : Int) (k : Nat), 0 ≤ lo → k < n →
      assocGet (bucketName (lo + k)) (filledBuckets env lo n)
        = some (bucketRecords env (lo + k) 0 txPerBucket.toNat) := by
  intro n
  induction n with
  | zero => intro lo k _ hk; omega
  | succ n ih =>
    intro lo k hlo hk
    cases k with
    | zero => simp [filledBuckets, assocGet]
    | succ k =>
      have hne : bucketName lo ≠ bucketName (lo + ((k + 1 : Nat) : Int)) := by
        intro h
        have := bucketName_inj hlo (by omega) h
        omega
      have hc : lo + ((k + 1 : Nat) : Int) = lo + 1 + (k : Int) := by push_cast; ring
      simp only [filledBuckets, assocGet, hne, if_false]
      rw [hc]
      exact ih (lo + 1) k (by omega) (by omega)

/-- With no store fault the insert loop of `main`, started on an empty
database, ends normally with the buckets `0`, ..., `numBuckets - 1` filled. -/
theorem insertPhase_spec (env : Env) (hf : env.faultFree) (s : MainState) (hs : s.db = []) :
    insertPhase env s = (Status.nil, { s with
      db := filledBuckets env 0 numBuckets.toNat
      stdout := s.stdout ++
        ["Stored " ++ fmtInt numItems ++ " objects in the database in " ++ env.elapsed ++ ".\n"] }) := by
  have h := insertPhaseLoop_spec env hf numBuckets.toNat 0 [] (le_refl _) (by simp [assocGet])
  simp only [insertPhase, forLoop, sub_zero, hs, h, List.nil_append]

/-! ## The delete phase -/

theorem randInt_range (lo hi : Int) (r : Nat) (h : lo < hi) :
    randInt lo hi r = some (lo + (r : Int) % (hi - lo)) ∧
      lo ≤ lo + (r : Int) % (hi - lo) ∧ lo + (r : Int) % (hi - lo) < hi := by
  have hpos : 0 < hi - lo := by omega
  have h1 := Int.emod_nonneg (r : Int) (ne_of_gt hpos)
  have h2 := Int.emod_lt_of_pos (r : Int) hpos
  refine ⟨?_, by omega, by omega⟩
  simp [randInt, Intn, not_le.2 hpos]

theorem deleteBucketName_eq (b : Int) : "bucket_" ++ fmtInt b = bucketName b := rfl

/-- What `deleteObjectsFromBucket` does for given draws: one `Delete` of the
key `keyOf b i` on the bucket found under `bucketName b`. -/
theorem deleteObjectsFromBucket_eq (env : Env) (tx : DB) (rng : Nat) :
    deleteObjectsFromBucket env tx rng =
      ((Bucket.Delete tx
          (Tx.Bucket tx (bucketName ((env.draws rng : Int) % (numBuckets - 1))))
          (keyOf ((env.draws rng : Int) % (numBuckets - 1))
            ((env.draws (rng + 1) : Int) % txPerBucket))).1,
       (Bucket.Delete tx
          (Tx.Bucket tx (bucketName ((env.draws rng : Int) % (numBuckets - 1))))
          (keyOf ((env.draws rng : Int) % (numBuckets - 1))
            ((env.draws (rng + 1) : Int) % txPerBucket))).2,
       rng + 2) := by
  have h1 := (randInt_range 0 (numBuckets - 1) (env.draws rng) (by decide)).1
  have h2 := (randInt_range 0 txPerBucket (env.draws (rng + 1)) (by decide)).1
  simp only [sub_zero, zero_add] at h1 h2
  simp only [deleteObjectsFromBucket, h1, h2, deleteBucketName_eq]
  rfl

theorem Bucket_Delete_ok {tx : DB} {name : String} {records : Bucket} (key : String)
    (hb : assocGet name tx = some records) :
    Bucket.Delete tx (Tx.Bucket tx name) key
      = (Status.nil, assocPut name (assocDel key records) tx) := by
  simp [Bucket.Delete, Tx.Bucket, hb]

theorem deleteTx_zero (env : Env) (hd : ∀ n, env.draws n = 0) (s : MainState)
    {records : Bucket} (hb : assocGet (bucketName 0) s.db = some records) :
    deleteTx env s = (Status.nil, { s with
      db := assocPut (bucketName 0) (assocDel (keyOf 0 0) records) s.db
      rng := s.rng + 2
      totalDeleted := s.totalDeleted + 1 }) := by
  have h0 : ((0 : Nat) : Int) % (numBuckets - 1) = 0 := by decide
  have h1 : ((0 : Nat) : Int) % txPerBucket = 0 := by decide
  simp only [deleteTx, DB.Update, deleteObjectsFromBucket_eq, hd, h0, h1, Bucket_Delete_ok _ hb]

/-- Once the key is gone, every further delete transaction with the same draws
changes nothing but the counters. -/
theorem deleteLoop_zero_gone (env : Env) (hd : ∀ n, env.draws n = 0) :
    ∀ (n : Nat) (i : Int) (s : MainState) (records : Bucket),
      assocGet (bucketName 0) s.db = some records → assocGet (keyOf 0 0) records = none →
      forLoopAux (fun _ s1 => deleteTx env s1) n i s = (Status.nil, { s with
        rng := s.rng + 2 * n
        totalDeleted := s.totalDeleted + n }) := by
  intro n
  induction n with
  | zero => intro i s records _ _; simp [forLoopAux]
  | succ n ih =>
    intro i s records hb hk
    rw [forLoopAux, deleteTx_zero env hd s hb, assocDel_absent hk, assocPut_same hb]
    simp only
    have hnext := ih (i + 1)
      { s with rng := s.rng + 2, totalDeleted := s.totalDeleted + 1 } records hb hk
    rw [hnext]
    simp only [Prod.mk.injEq, true_and, MainState.mk.injEq, and_true]
    constructor
    · omega
    · push_cast; ring

theorem deleteLoop_zero (env : Env) (hd : ∀ n, env.draws n = 0) (n : Nat) (i : Int)
    (s : MainState) (records : Bucket) (hn : 0 < n)
    (hb : assocGet (bucketName 0) s.db = some records) :
    forLoopAux (fun _ s1 => deleteTx env s1) n i s = (Status.nil, { s with
      db := assocPut (bucketName 0) (assocDel (keyOf 0 0) records) s.db
      rng := s.rng + 2 * n
      totalDeleted := s.totalDeleted + n }) := by
  cases n with
  | zero => omega
  | succ n =>
    rw [forLoopAux_succ, deleteTx_zero env hd s hb]
    simp only
    have hnext := deleteLoop_zero_gone env hd n (i + 1)
      { s with
        db := assocPut (bucketName 0) (assocDel (keyOf 0 0) records) s.db
        rng := s.rng + 2
        totalDeleted := s.totalDeleted + 1 } (assocDel (keyOf 0 0) records)
      (assocGet_assocPut_self _ _ _) (assocGet_assocDel_self _ _)
    rw [hnext]
    simp only [Prod.mk.injEq, true_and, MainState.mk.injEq, and_true]
    constructor
    · omega
    · push_cast; ring

theorem fmtInt_5000 : fmtInt 5000 = "5000" := by decide

theorem deletePhase_zero (env : Env) (hd : ∀ n, env.draws n = 0) (s : MainState)
    {records : Bucket} (hb : assocGet (bucketName 0) s.db = some records) :
    deletePhase env s = (Status.nil, { s with
      db := assocPut (bucketName 0) (assocDel (keyOf 0 0) records) s.db
      rng := s.rng + 10000
      totalDeleted := 5000
      stdout := s.stdout ++ ["Deleted 5000 random objects from the database.\n"] }) := by
  have hn : ((5000 : Int) - 0).toNat = 5000 := rfl
  have h := deleteLoop_zero env hd 5000 0 { s with totalDeleted := 0 } records (by norm_num) hb
  unfold deletePhase forLoop
  rw [hn, h]
  have ht : (0 : Int) + ((5000 : Nat) : Int) = 5000 := by norm_num
  simp only [ht, fmtInt_5000]
  rfl

theorem deleteTx_nil (env : Env) (s : MainState) (h : (deleteTx env s).1 = Status.nil) :
    (deleteTx env s).2.totalDeleted = s.totalDeleted + 1 := by
  revert h
  simp only [deleteTx, DB.Update]
  generalize deleteObjectsFromBucket env s.db s.rng = r
  obtain ⟨st, tx1, rng1⟩ := r
  cases st <;> simp

theorem deleteLoop_total (env : Env) :
    ∀ (n : Nat) (i : Int) (s : MainState),
      (forLoopAux (fun _ s1 => deleteTx env s1) n i s).1 = Status.nil →
      (forLoopAux (fun _ s1 => deleteTx env s1) n i s).2.totalDeleted = s.totalDeleted + n := by
  intro n
  induction n with
  | zero => intro i s _; simp [forLoopAux]
  | succ n ih =>
    intro i s h
    rw [forLoopAux] at h ⊢
    have hnil := deleteTx_nil env s
    generalize deleteTx env s = r at h hnil ⊢
    obtain ⟨st, s1⟩ := r
    cases st with
    | nil =>
      simp only at h hnil ⊢
      rw [ih (i + 1) s1 h, hnil trivial]
      push_cast; ring
    | error msg => simp at h
    | panicked msg => simp at h

/-- When the delete loop of `main` runs to its end, `totalDeleted` is 5000. -/
theorem deletePhase_total (env : Env) (s : MainState)
    (h : (deletePhase env s).1 = Status.nil) : (deletePhase env s).2.totalDeleted = 5000 := by
  have hl := deleteLoop_total env ((5000 : Int) - 0).toNat 0 { s with totalDeleted := 0 }
  revert h
  simp only [deletePhase, forLoop] at hl ⊢
  generalize forLoopAux (fun _ s1 => deleteTx env s1) ((5000 : Int) - 0).toNat 0
    { s with totalDeleted := 0 } = r at hl ⊢
  obtain ⟨st, s1⟩ := r
  cases st with
  | nil =>
    intro _
    have := hl rfl
    simp only at this ⊢
    rw [this]
    decide
  | error msg => simp
  | panicked msg => simp

/-! ## The last transaction -/

theorem addBackStep_ok (env : Env) (i : Int) (st : DB × Nat) {records : Bucket}
    (hb : assocGet (bucketName ((env.draws st.2 : Int) % numBuckets)) st.1 = some records)
    (hput : ∀ name key, env.putErr name key = none) :
    addBackStep env i st = (Status.nil,
      (assocPut (bucketName ((env.draws st.2 : Int) % numBuckets))
        (assocPut (keyOf ((env.draws st.2 : Int) % numBuckets) i)
          (valueOf (env.now ((env.draws st.2 : Int) % numBuckets) i) i) records) st.1,
       st.2 + 1)) := by
  have hr := (randInt_range 0 numBuckets (env.draws st.2) (by decide)).1
  simp only [sub_zero, zero_add] at hr
  have hg : generateKeyValue (env.now ((env.draws st.2 : Int) % numBuckets) i)
      ((env.draws st.2 : Int) % numBuckets) i
      = Except.ok (keyOf ((env.draws st.2 : Int) % numBuckets) i,
          valueOf (env.now ((env.draws st.2 : Int) % numBuckets) i) i) := rfl
  have ht : Tx.Bucket st.1 (bucketName ((env.draws st.2 : Int) % numBuckets))
      = some (bucketName ((env.draws st.2 : Int) % numBuckets)) := by
    simp [Tx.Bucket, hb]
  simp only [addBackStep, hr, hg, ht, Bucket_Put_ok env _ _ hb (hput _ _)]

theorem addBackStep_inv (env : Env) (hput : ∀ name key, env.putErr name key = none)
    (tx0 : DB) (rng0 : Nat) (i : Int) (st : DB × Nat) (h : addBackInv tx0 rng0 i st) :
    (addBackStep env i st).1 = Status.nil ∧ addBackInv tx0 rng0 (i + 1) (addBackStep env i st).2 := by
  obtain ⟨hi, hbk, hkeys, hcnt, hold, hnewk, hrng⟩ := h
  have hr := (randInt_range 0 numBuckets (env.draws st.2) (by decide)).2
  simp only [sub_zero, zero_add] at hr
  have htx := txPerBucket_eq
  obtain ⟨records, hrec⟩ := hbk _ hr.1 hr.2
  have habs : assocGet (keyOf ((env.draws st.2 : Int) % numBuckets) i) records = none := by
    rw [assocGet_eq_none_iff]
    intro p hp heq
    obtain ⟨b2, j, hj0, hj, hpk⟩ := hkeys _ _ hrec p hp
    rw [hpk] at heq
    have := keyOf_index_inj hj0 (by omega) heq
    omega
  rw [addBackStep_ok env i st hrec hput, assocPut_absent _ habs]
  refine ⟨rfl, by omega, ?_, ?_, ?_, ?_, ?_, ?_⟩
  · intro b2 hb0 hb1
    by_cases hn : bucketName b2 = bucketName ((env.draws st.2 : Int) % numBuckets)
    · exact ⟨_, by rw [hn]; exact assocGet_assocPut_self _ _ _⟩
    · obtain ⟨r2, hr2⟩ := hbk b2 hb0 hb1
      exact ⟨r2, by rw [assocGet_assocPut_ne _ _ hn]; exact hr2⟩
  · intro name records2 hget p hp
    by_cases hn : name = bucketName ((env.draws st.2 : Int) % numBuckets)
    · subst hn
      rw [assocGet_assocPut_self] at hget
      have hre := Option.some.inj hget
      subst hre
      rcases List.mem_append.1 hp with hp | hp
      · obtain ⟨b2, j, hj0, hj, hpk⟩ := hkeys _ _ hrec p hp
        exact ⟨b2, j, hj0, by omega, hpk⟩
      · have hpe : p = (keyOf ((env.draws st.2 : Int) % numBuckets) i,
            valueOf (env.now ((env.draws st.2 : Int) % numBuckets) i) i) := by simpa using hp
        exact ⟨_, i, by omega, by omega, by rw [hpe]⟩
    · rw [assocGet_assocPut_ne _ _ hn] at hget
      obtain ⟨b2, j, hj0, hj, hpk⟩ := hkeys _ _ hget p hp
      exact ⟨b2, j, hj0, by omega, hpk⟩
  · have hc := recordCount_assocPut
      (records ++ [(keyOf ((env.draws st.2 : Int) % numBuckets) i,
        valueOf (env.now ((env.draws st.2 : Int) % numBuckets) i) i)]) hrec
    simp only [List.length_append, List.length_singleton] at hc
    simp only
    omega
  · intro name key value hg
    have h1 := hold name key value hg
    by_cases hn : name = bucketName ((env.draws st.2 : Int) % numBuckets)
    · subst hn
      simp only [DB.get, hrec] at h1
      simp only [DB.get, assocGet_assocPut_self]
      exact assocGet_append_some _ h1
    · simp only [DB.get, assocGet_assocPut_ne _ _ hn]
      exact h1
  · intro name key hg
    by_cases hn : name = bucketName ((env.draws st.2 : Int) % numBuckets)
    · subst hn
      by_cases hk : key = keyOf ((env.draws st.2 : Int) % numBuckets) i
      · exact Or.inr ⟨_, i, hr.1, hr.2, hi, by omega, rfl, hk⟩
      · simp only [DB.get, assocGet_assocPut_self, assocGet_append_single_ne _ _ hk] at hg
        have h2 : DB.get st.1 (bucketName ((env.draws st.2 : Int) % numBuckets)) key ≠ none := by
          simpa only [DB.get, hrec] using hg
        rcases hnewk _ _ h2 with h3 | ⟨b2, j, h3, h4, h5, h6, h7, h8⟩
        · exact Or.inl h3
        · exact Or.inr ⟨b2, j, h3, h4, h5, by omega, h7, h8⟩
    · simp only [DB.get, assocGet_assocPut_ne _ _ hn] at hg
      rcases hnewk name key hg with h3 | ⟨b2, j, h3, h4, h5, h6, h7, h8⟩
      · exact Or.inl h3
      · exact Or.inr ⟨b2, j, h3, h4, h5, by omega, h7, h8⟩
  · simp only
    omega

/-- With no failing `Put` and a destination that holds the buckets of the
driver and only keys of key index below `txPerBucket`, the last transaction of
`main` commits, adds exactly 5000 records, changes no record that was there, and
the message reports the value of `totalDeleted`. -/
theorem addBackPhase_spec (env : Env) (hput : ∀ name key, env.putErr name key = none)
    (s : MainState) (hdst : s.dstDb.dstReady) :
    (addBackPhase env s).1 = Status.nil ∧
    DB.recordCount (addBackPhase env s).2.dstDb = DB.recordCount s.dstDb + 5000 ∧
    (∀ name key value, DB.get s.dstDb name key = some value →
      DB.get (addBackPhase env s).2.dstDb name key = some value) ∧
    (∀ name key, DB.get (addBackPhase env s).2.dstDb name key ≠ none →
      DB.get s.dstDb name key ≠ none ∨
      ∃ b j : Int, 0 ≤ b ∧ b < numBuckets ∧ txPerBucket ≤ j ∧ j < txPerBucket + 5000 ∧
        name = bucketName b ∧ key = keyOf b j) ∧
    (addBackPhase env s).2.stdout = s.stdout ++
      ["Stored " ++ fmtInt s.totalDeleted ++ " new objects in the database.\n"] := by
  have h0 : addBackInv s.dstDb s.rng txPerBucket (s.dstDb, s.rng) := by
    refine ⟨le_refl _, hdst.1, hdst.2, by simp, fun _ _ _ h => h, fun _ _ h => Or.inl h, by simp⟩
  have hl := forLoopAux_inv (addBackStep env) (addBackInv s.dstDb s.rng)
    (addBackStep_inv env hput s.dstDb s.rng) (txPerBucket + 5000 - txPerBucket).toNat
    txPerBucket (s.dstDb, s.rng) h0
  have hbody : addBackBody env s.dstDb s.rng
      = forLoopAux (addBackStep env) (txPerBucket + 5000 - txPerBucket).toNat txPerBucket
          (s.dstDb, s.rng) := rfl
  unfold addBackPhase DB.Update
  rw [hbody]
  generalize forLoopAux (addBackStep env) (txPerBucket + 5000 - txPerBucket).toNat txPerBucket
    (s.dstDb, s.rng) = r at hl
  obtain ⟨st, tx1, rng1⟩ := r
  obtain ⟨hst, -, -, -, hcnt, hold, hnewk, -⟩ := hl
  simp only at hst hcnt hold hnewk
  subst hst
  have hn : (txPerBucket + ((txPerBucket + 5000 - txPerBucket).toNat : Int) - txPerBucket).toNat
      = 5000 := by decide
  have hm : txPerBucket + ((txPerBucket + 5000 - txPerBucket).toNat : Int) = txPerBucket + 5000 := by
    decide
  rw [hm] at hnewk
  refine ⟨rfl, ?_, hold, hnewk, rfl⟩
  simp only
  rw [hcnt, hn]

/-! ## Compaction -/

theorem Bucket_Put_cases (env : Env) {tx : DB} {name : String} {records : Bucket}
    (key value : String) (hb : assocGet name tx = some records) :
    Bucket.Put env tx (some name) key value =
      match env.putErr name key with
      | some err => (Status.error err, tx)
      | none => (Status.nil, assocPut name (assocPut key value records) tx) := by
  simp [Bucket.Put, hb]

theorem compactBucket_spec (env : Env) (name : String) :
    ∀ (records : Bucket) (dst : DB) (pre : Bucket), assocGet name dst = some pre →
      (records.map Prod.fst).Nodup → (∀ p ∈ records, assocGet p.1 pre = none) →
      (compactBucket env (some name) records dst).1 = Status.nil →
      (compactBucket env (some name) records dst).2 = assocPut name (pre ++ records) dst := by
  intro records
  induction records with
  | nil => intro dst pre hb _ _ _; simp [compactBucket, assocPut_same hb]
  | cons kv rest ih =>
    obtain ⟨k, v⟩ := kv
    intro dst pre hb hnd hnew hnil
    simp only [List.map_cons, List.nodup_cons] at hnd
    have habs : assocGet k pre = none := hnew (k, v) (List.mem_cons_self _ _)
    rw [compactBucket, Bucket_Put_cases env k v hb] at hnil ⊢
    cases hp : env.putErr name k with
    | some err => simp [hp] at hnil
    | none =>
      simp only [hp] at hnil ⊢
      rw [assocPut_absent _ habs] at hnil ⊢
      rw [ih _ (pre ++ [(k, v)]) (assocGet_assocPut_self _ _ _) hnd.2 _ hnil, assocPut_assocPut]
      · simp
      · intro p hp2
        rw [assocGet_append_none _ (hnew p (List.mem_cons_of_mem _ hp2))]
        have hne : k ≠ p.1 := fun h => hnd.1 (List.mem_map.2 ⟨p, hp2, h.symm⟩)
        simp [assocGet, hne]

theorem compactWalk_spec (env : Env) :
    ∀ (src dst : DB), src.wellFormed → (∀ p ∈ src, assocGet p.1 dst = none) →
      (compactWalk env src dst).1 = Status.nil → (compactWalk env src dst).2 = dst ++ src := by
  intro src
  induction src with
  | nil => intro dst _ _ _; simp [compactWalk]
  | cons nb rest ih =>
    obtain ⟨name, records⟩ := nb
    intro dst hwf hnew hnil
    obtain ⟨hnames, hkeys⟩ := hwf
    simp only [List.map_cons, List.nodup_cons] at hnames
    have habs : assocGet name dst = none := hnew (name, records) (List.mem_cons_self _ _)
    rw [compactWalk] at hnil ⊢
    simp only [Tx.CreateBucketIfNotExists, habs] at hnil ⊢
    cases hc : env.createErr name with
    | some err => simp [hc] at hnil
    | none =>
      simp only [hc] at hnil ⊢
      have hb := compactBucket_spec env name records (assocPut name [] dst) []
        (assocGet_assocPut_self _ _ _) (hkeys _ (List.mem_cons_self _ _)) (by simp [assocGet])
      generalize compactBucket env (some name) records (assocPut name [] dst) = r at hb hnil ⊢
      obtain ⟨st, dst2⟩ := r
      cases st with
      | nil =>
        simp only at hb hnil ⊢
        have hd2 : dst2 = dst ++ [(name, records)] := by
          rw [hb trivial, assocPut_assocPut, List.nil_append, assocPut_absent _ habs]
        subst hd2
        rw [ih _ ⟨hnames.2, fun p hp => hkeys p (List.mem_cons_of_mem _ hp)⟩ _ hnil]
        · simp
        · intro p hp
          rw [assocGet_append_none _ (hnew p (List.mem_cons_of_mem _ hp))]
          have hne : name ≠ p.1 := fun h => hnames.1 (List.mem_map.2 ⟨p, hp, h.symm⟩)
          simp [assocGet, hne]
      | error msg => simp at hnil
      | panicked msg => simp at hnil

/-- Compaction of a well-formed source into an empty destination, when it
returns nil, leaves the destination with the content of the source. -/
theorem Compact_empty (env : Env) (src : DB) (hwf : src.wellFormed)
    (hnil : (Compact env [] src).1 = Status.nil) : (Compact env [] src).2 = src := by
  have h := compactWalk_spec env src [] hwf (by simp [assocGet])
  revert hnil
  simp only [Compact, DB.Update]
  generalize compactWalk env src [] = r at h
  obtain ⟨st, tx1⟩ := r
  cases st with
  | nil => intro _; simpa using h rfl
  | error msg => simp
  | panicked msg => simp

/-! ## Facts shared by the results below -/

theorem quietEnv_faultFree : quietEnv.faultFree :=
  ⟨fun _ _ => rfl, fun _ => rfl⟩

theorem generateKeyValue_key (now : String) (b i : Int) :
    (generateKeyValue now b i).map Prod.fst = Except.ok (keyOf b i) := rfl

theorem get_filledBuckets (env : Env) {b i : Int} (hb0 : 0 ≤ b) (hb : b < numBuckets)
    (hi0 : 0 ≤ i) (hi : i < txPerBucket) :
    DB.get (filledBuckets env 0 numBuckets.toNat) (bucketName b) (keyOf b i)
      = some (valueOf (env.now b i) i) := by
  obtain ⟨kb, rfl⟩ := Int.eq_ofNat_of_zero_le hb0
  obtain ⟨ki, rfl⟩ := Int.eq_ofNat_of_zero_le hi0
  have hnb : numBuckets = 500 := rfl
  have htx := txPerBucket_eq
  have h1 := assocGet_filledBuckets env numBuckets.toNat 0 kb (le_refl _) (by omega)
  have h2 := assocGet_bucketRecords_some env kb txPerBucket.toNat 0 ki (le_refl _) (by omega)
  simp only [zero_add] at h1 h2
  simp only [DB.get, h1, h2]

theorem afterInsert_db (env : Env) (hf : env.faultFree) (s : MainState) (hs : s.db = []) :
    (afterInsert env s).db = filledBuckets env 0 numBuckets.toNat := by
  simp only [afterInsert, insertPhase_spec env hf s hs]

theorem filledBuckets_wellFormed (env : Env) (n : Nat) :
    (filledBuckets env 0 n).wellFormed := by
  refine ⟨filledBuckets_names_nodup env n 0 (le_refl _), ?_⟩
  intro p hp
  obtain ⟨k, _, rfl⟩ := filledBuckets_mem env n 0 p hp
  exact bucketRecords_nodup env _ _ 0 (le_refl _)

/-! ## Results -/

/-- C1 (the code departs from it): in the run `failingPutEnv` on an empty
database the helper `insertObjectIntoBucket(tx, 0)` returns the error of the
failed `Put` with one of the `txPerBucket` keys written, yet the transaction of
the insert loop of `main` returns nil and commits that state: the closure
returns nil, not the error of the helper. -/
theorem insertTx_commits_after_failed_put :
    insertObjectIntoBucket failingPutEnv [] 0
        = (Status.error "put failed",
            [("bucket_0", [("key_0_0", valueOf (failingPutEnv.now 0 0) 0)])]) ∧
      insertTx failingPutEnv 0 []
        = (Status.nil, [("bucket_0", [("key_0_0", valueOf (failingPutEnv.now 0 0) 0)])]) ∧
      DB.recordCount (insertTx failingPutEnv 0 []).2 = 1 := by
  decide

/-- C2: for every outcome of the random source, `deleteObjectsFromBucket` makes
one `Delete` of the key of `generateKeyValue(b, i)` on the bucket looked up
under `bucketName(b)`, for some `0 <= b < numBuckets` and `0 <= i < txPerBucket`;
that pair is one the insert phase of a fault-free run writes. -/
theorem deleteObjectsFromBucket_targets_inserted (env : Env) (tx : DB) (rng : Nat)
    (envI : Env) (hf : envI.faultFree) (s : MainState) (hs : s.db = []) :
    ∃ b i : Int, 0 ≤ b ∧ b < numBuckets ∧ 0 ≤ i ∧ i < txPerBucket ∧
      deleteObjectsFromBucket env tx rng =
        ((Bucket.Delete tx (Tx.Bucket tx (bucketName b)) (keyOf b i)).1,
         (Bucket.Delete tx (Tx.Bucket tx (bucketName b)) (keyOf b i)).2, rng + 2) ∧
      (∀ now, (generateKeyValue now b i).map Prod.fst = Except.ok (keyOf b i)) ∧
      DB.get (insertPhase envI s).2.db (bucketName b) (keyOf b i) ≠ none := by
  have h1 := (randInt_range 0 (numBuckets - 1) (env.draws rng) (by decide)).2
  have h2 := (randInt_range 0 txPerBucket (env.draws (rng + 1)) (by decide)).2
  simp only [sub_zero, zero_add] at h1 h2
  have hlt : (env.draws rng : Int) % (numBuckets - 1) < numBuckets := by
    have : numBuckets = 500 := rfl
    omega
  refine ⟨_, _, h1.1, hlt, h2.1, h2.2, deleteObjectsFromBucket_eq env tx rng,
    fun now => generateKeyValue_key now _ _, ?_⟩
  have hdb := afterInsert_db envI hf s hs
  simp only [afterInsert] at hdb
  rw [hdb, get_filledBuckets envI h1.1 hlt h2.1 h2.2]
  simp

theorem deleteObjectsFromBucket_targets_inserted_witness :
    quietEnv.faultFree ∧
    ∃ b i : Int, 0 ≤ b ∧ b < numBuckets ∧ 0 ≤ i ∧ i < txPerBucket ∧
      deleteObjectsFromBucket oneDrawEnv [] 0 =
        ((Bucket.Delete [] (Tx.Bucket [] (bucketName b)) (keyOf b i)).1,
         (Bucket.Delete [] (Tx.Bucket [] (bucketName b)) (keyOf b i)).2, 0 + 2) ∧
      (∀ now, (generateKeyValue now b i).map Prod.fst = Except.ok (keyOf b i)) ∧
      DB.get (insertPhase quietEnv ⟨[], [], 0, 0, []⟩).2.db (bucketName b) (keyOf b i) ≠ none :=
  ⟨quietEnv_faultFree,
    deleteObjectsFromBucket_targets_inserted oneDrawEnv [] 0 quietEnv quietEnv_faultFree
      ⟨[], [], 0, 0, []⟩ rfl⟩

/-- C3: in a fault-free run on an empty database in which the random source
always yields 0, all 5000 delete transactions of `main` target the key of
`generateKeyValue(0, 0)` in `bucketName(0)`.  The first one removes it; the
second one finds it gone, returns nil and leaves the database as it was; the
loop runs to its end with `totalDeleted = 5000`, and the database has lost
exactly one record, fewer than the 5000 that the message reports. -/
theorem deletePhase_repeated_key (env : Env) (hd : ∀ n, env.draws n = 0) (hf : env.faultFree)
    (s : MainState) (hs : s.db = []) :
    DB.get (afterInsert env s).db (bucketName 0) (keyOf 0 0) ≠ none ∧
    DB.get (afterFirstDelete env s).db (bucketName 0) (keyOf 0 0) = none ∧
    deleteObjectsFromBucket env (afterFirstDelete env s).db (afterFirstDelete env s).rng
      = ((Bucket.Delete (afterFirstDelete env s).db
            (Tx.Bucket (afterFirstDelete env s).db (bucketName 0)) (keyOf 0 0)).1,
         (Bucket.Delete (afterFirstDelete env s).db
            (Tx.Bucket (afterFirstDelete env s).db (bucketName 0)) (keyOf 0 0)).2,
         (afterFirstDelete env s).rng + 2) ∧
    deleteObjectsFromBucket env (afterFirstDelete env s).db (afterFirstDelete env s).rng
      = (Status.nil, (afterFirstDelete env s).db, (afterFirstDelete env s).rng + 2) ∧
    (deletePhase env (afterInsert env s)).1 = Status.nil ∧
    (deletePhase env (afterInsert env s)).2.totalDeleted = 5000 ∧
    (deletePhase env (afterInsert env s)).2.stdout = (afterInsert env s).stdout ++
      ["Deleted 5000 random objects from the database.\n"] ∧
    DB.recordCount (deletePhase env (afterInsert env s)).2.db + 1
      = DB.recordCount (afterInsert env s).db ∧
    DB.recordCount (afterInsert env s).db
      - DB.recordCount (deletePhase env (afterInsert env s)).2.db < 5000 := by
  have hnb : (0 : Nat) < numBuckets.toNat := by decide
  have htx : (0 : Nat) < txPerBucket.toNat := by decide
  have hdb := afterInsert_db env hf s hs
  have hbk := assocGet_filledBuckets env numBuckets.toNat 0 0 (le_refl _) hnb
  have hkey := assocGet_bucketRecords_some env 0 txPerBucket.toNat 0 0 (le_refl _) htx
  simp only [Nat.cast_zero, add_zero] at hbk hkey
  rw [← hdb] at hbk
  have hfirst := deleteTx_zero env hd { afterInsert env s with totalDeleted := 0 } hbk
  have hphase := deletePhase_zero env hd (afterInsert env s) hbk
  have hgone : assocGet (keyOf 0 0) (assocDel (keyOf 0 0) (bucketRecords env 0 0 txPerBucket.toNat))
      = none := assocGet_assocDel_self _ _
  have hafter : (afterFirstDelete env s).db = assocPut (bucketName 0)
      (assocDel (keyOf 0 0) (bucketRecords env 0 0 txPerBucket.toNat)) (afterInsert env s).db := by
    simp only [afterFirstDelete, hfirst]
  have hbk2 : assocGet (bucketName 0) (afterFirstDelete env s).db
      = some (assocDel (keyOf 0 0) (bucketRecords env 0 0 txPerBucket.toNat)) := by
    rw [hafter]; exact assocGet_assocPut_self _ _ _
  have hsecond := deleteObjectsFromBucket_eq env (afterFirstDelete env s).db
    (afterFirstDelete env s).rng
  have h0 : ((0 : Nat) : Int) % (numBuckets - 1) = 0 := by decide
  have h1 : ((0 : Nat) : Int) % txPerBucket = 0 := by decide
  simp only [hd, h0, h1] at hsecond
  have hcount := recordCount_assocPut
    (assocDel (keyOf 0 0) (bucketRecords env 0 0 txPerBucket.toNat)) hbk
  have hlen := length_assocDel_nodup (bucketRecords env 0 0 txPerBucket.toNat)
    (bucketRecords_nodup env 0 _ 0 (le_refl _)) hkey
  refine ⟨?_, ?_, hsecond, ?_, ?_, ?_, ?_, ?_, ?_⟩
  · simp [DB.get, hbk, hkey]
  · simp only [DB.get, hbk2, hgone]
  · rw [hsecond, Bucket_Delete_ok _ hbk2, assocDel_absent hgone, assocPut_same hbk2]
  · rw [hphase]
  · rw [hphase]
  · rw [hphase]
  · rw [hphase]; simp only; omega
  · rw [hphase]; simp only; omega

theorem deletePhase_repeated_key_witness :
    (∀ n, quietEnv.draws n = 0) ∧ quietEnv.faultFree ∧
    (deletePhase quietEnv (afterInsert quietEnv ⟨[], [], 0, 0, []⟩)).2.totalDeleted = 5000 ∧
    DB.recordCount (deletePhase quietEnv (afterInsert quietEnv ⟨[], [], 0, 0, []⟩)).2.db + 1
      = DB.recordCount (afterInsert quietEnv ⟨[], [], 0, 0, []⟩).db :=
  ⟨fun _ => rfl, quietEnv_faultFree,
    (deletePhase_repeated_key quietEnv (fun _ => rfl) quietEnv_faultFree
      ⟨[], [], 0, 0, []⟩ rfl).2.2.2.2.2.1,
    (deletePhase_repeated_key quietEnv (fun _ => rfl) quietEnv_faultFree
      ⟨[], [], 0, 0, []⟩ rfl).2.2.2.2.2.2.2.1⟩

/-- C4: if no `Put` and no bucket creation fails, the insert loop of `main`
started on an empty database ends normally with exactly `numBuckets = 500`
buckets of distinct names, each with exactly `txPerBucket = 2000` records of
distinct keys, `numItems = 1000000` records in all, which is the number in the
message; `numBuckets * txPerBucket = numItems` without remainder, `bucketName`
is injective on the bucket indices and the key of `generateKeyValue` is
injective on the key indices of one bucket. -/
theorem insertPhase_fills (env : Env) (hf : env.faultFree) (s : MainState) (hs : s.db = []) :
    (insertPhase env s).1 = Status.nil ∧
    (insertPhase env s).2.db.length = 500 ∧
    ((insertPhase env s).2.db.map Prod.fst).Nodup ∧
    (∀ b : Int, 0 ≤ b → b < numBuckets →
      ∃ records, assocGet (bucketName b) (insertPhase env s).2.db = some records) ∧
    (∀ p ∈ (insertPhase env s).2.db, p.2.length = 2000 ∧ (p.2.map Prod.fst).Nodup) ∧
    DB.recordCount (insertPhase env s).2.db = 1000000 ∧
    (insertPhase env s).2.stdout = s.stdout ++
      ["Stored 1000000 objects in the database in " ++ env.elapsed ++ ".\n"] ∧
    numBuckets * txPerBucket = numItems ∧ numItems % numBuckets = 0 ∧
    (∀ a b : Int, 0 ≤ a → a < numBuckets → 0 ≤ b → b < numBuckets →
      bucketName a = bucketName b → a = b) ∧
    (∀ (now1 now2 : String) (b i j : Int), 0 ≤ i → i < txPerBucket → 0 ≤ j → j < txPerBucket →
      (generateKeyValue now1 b i).map Prod.fst = (generateKeyValue now2 b j).map Prod.fst →
      i = j) := by
  have hnb : numBuckets.toNat = 500 := by decide
  have htx : txPerBucket.toNat = 2000 := by decide
  rw [insertPhase_spec env hf s hs]
  refine ⟨rfl, ?_, filledBuckets_names_nodup env _ 0 (le_refl _), ?_, ?_, ?_, ?_,
    by decide, by decide, ?_, ?_⟩
  · rw [filledBuckets_length, hnb]
  · intro b hb0 hb
    obtain ⟨kb, rfl⟩ := Int.eq_ofNat_of_zero_le hb0
    have hnum : numBuckets = 500 := rfl
    have := assocGet_filledBuckets env numBuckets.toNat 0 kb (le_refl _) (by omega)
    simp only [zero_add] at this
    exact ⟨_, this⟩
  · intro p hp
    obtain ⟨k, _, rfl⟩ := filledBuckets_mem env _ 0 p hp
    exact ⟨by rw [bucketRecords_length, htx], bucketRecords_nodup env _ _ 0 (le_refl _)⟩
  · rw [filledBuckets_recordCount, hnb, htx]
  · rfl
  · intro a b ha0 _ hb0 _ h
    exact bucketName_inj ha0 hb0 h
  · intro now1 now2 b i j hi0 _ hj0 _ h
    rw [generateKeyValue_key, generateKeyValue_key] at h
    exact keyOf_index_inj hi0 hj0 (Except.ok.inj h)

theorem insertPhase_fills_witness :
    quietEnv.faultFree ∧
    (insertPhase quietEnv ⟨[], [], 0, 0, []⟩).1 = Status.nil ∧
    DB.recordCount (insertPhase quietEnv ⟨[], [], 0, 0, []⟩).2.db = 1000000 :=
  ⟨quietEnv_faultFree,
    (insertPhase_fills quietEnv quietEnv_faultFree ⟨[], [], 0, 0, []⟩ rfl).1,
    (insertPhase_fills quietEnv quietEnv_faultFree ⟨[], [], 0, 0, []⟩ rfl).2.2.2.2.2.1⟩

/-- C5 as stated fails: compaction into a destination file that already holds
a bucket returns nil and leaves that bucket in the destination, so a triple can
be read from the destination that cannot be read from the source. -/
theorem compactPhase_keeps_destination_records :
    ¬ (∀ (env : Env) (s : MainState), (compactPhase env s).1 = Status.nil →
        (∀ name key, DB.get (compactPhase env s).2.dstDb name key = DB.get s.db name key) ∧
        (compactPhase env s).2.db = s.db) := by
  intro h
  have h1 := (h quietEnv
    ⟨[("bucket_0", [("key_0_0", "v")])], [("old", [("k", "w")])], 0, 0, []⟩ (by decide)).1
    "old" "k"
  revert h1
  decide

/-- C5, amended: when the destination holds no bucket at the start and the
source is well formed, then after `bbolt.Compact(dstDb, db, 0)` returns nil in
`main` the destination holds the content of the source, the same triples can be
read from both, and the source is as it was. -/
theorem compactPhase_into_empty (env : Env) (s : MainState) (hdst : s.dstDb = [])
    (hwf : s.db.wellFormed) (hnil : (compactPhase env s).1 = Status.nil) :
    (compactPhase env s).2.dstDb = s.db ∧
    (∀ name key, DB.get (compactPhase env s).2.dstDb name key = DB.get s.db name key) ∧
    (compactPhase env s).2.db = s.db := by
  have hc : (compactPhase env s).2.dstDb = s.db := by
    simp only [compactPhase, hdst] at hnil ⊢
    exact Compact_empty env s.db hwf hnil
  exact ⟨hc, fun name key => by rw [hc], rfl⟩

theorem compactPhase_into_empty_witness :
    (⟨[("bucket_0", [("key_0_0", "v")])], [], 0, 0, []⟩ : MainState).dstDb = [] ∧
    (compactPhase quietEnv ⟨[("bucket_0", [("key_0_0", "v")])], [], 0, 0, []⟩).1 = Status.nil ∧
    (compactPhase quietEnv ⟨[("bucket_0", [("key_0_0", "v")])], [], 0, 0, []⟩).2.dstDb
      = [("bucket_0", [("key_0_0", "v")])] :=
  ⟨rfl, by decide,
    (compactPhase_into_empty quietEnv ⟨[("bucket_0", [("key_0_0", "v")])], [], 0, 0, []⟩ rfl
      ⟨by decide, by decide⟩ (by decide)).1⟩

/-- C6: when the delete loop of `main` ran to its end, no `Put` fails, and the
destination holds all `numBuckets` buckets and only keys of key index below
`txPerBucket`, then for every outcome of the random source the last
transaction commits, every record it adds has a key index in
`[txPerBucket, txPerBucket + 5000)`, no record that was there is changed, the
record count of the destination grows by exactly 5000, `totalDeleted` is 5000,
and the message reports 5000. -/
theorem addBackPhase_adds_totalDeleted (env : Env)
    (hput : ∀ name key, env.putErr name key = none) (s0 s : MainState)
    (hdel : (deletePhase env s0).1 = Status.nil)
    (hs : s.totalDeleted = (deletePhase env s0).2.totalDeleted)
    (hdst : s.dstDb.dstReady) :
    s.totalDeleted = 5000 ∧
    (addBackPhase env s).1 = Status.nil ∧
    DB.recordCount (addBackPhase env s).2.dstDb = DB.recordCount s.dstDb + 5000 ∧
    (∀ name key value, DB.get s.dstDb name key = some value →
      DB.get (addBackPhase env s).2.dstDb name key = some value) ∧
    (∀ name key, DB.get (addBackPhase env s).2.dstDb name key ≠ none →
      DB.get s.dstDb name key ≠ none ∨
      ∃ b j : Int, 0 ≤ b ∧ b < numBuckets ∧ txPerBucket ≤ j ∧ j < txPerBucket + 5000 ∧
        name = bucketName b ∧ key = keyOf b j) ∧
    (addBackPhase env s).2.stdout = s.stdout ++ ["Stored 5000 new objects in the database.\n"] := by
  have htot : s.totalDeleted = 5000 := by rw [hs]; exact deletePhase_total env s0 hdel
  obtain ⟨h1, h2, h3, h4, h5⟩ := addBackPhase_spec env hput s hdst
  refine ⟨htot, h1, h2, h3, h4, ?_⟩
  rw [h5, htot]
  rfl

theorem addBackPhase_adds_totalDeleted_witness :
    (∀ name key, quietEnv.putErr name key = none) ∧
    (deletePhase quietEnv ⟨[("bucket_0", [])], [], 0, 0, []⟩).1 = Status.nil ∧
    (⟨[], filledBuckets quietEnv 0 numBuckets.toNat, 0, 5000, []⟩ : MainState).totalDeleted
      = 5000 ∧
    DB.recordCount
        (addBackPhase quietEnv ⟨[], filledBuckets quietEnv 0 numBuckets.toNat, 0, 5000, []⟩).2.dstDb
      = DB.recordCount (filledBuckets quietEnv 0 numBuckets.toNat) + 5000 :=
  have hdel : (deletePhase quietEnv ⟨[("bucket_0", [])], [], 0, 0, []⟩).1 = Status.nil := by
    rw [@deletePhase_zero quietEnv (fun _ => rfl) ⟨[("bucket_0", [])], [], 0, 0, []⟩
      [] (by decide)]
  have htot : (deletePhase quietEnv ⟨[("bucket_0", [])], [], 0, 0, []⟩).2.totalDeleted = 5000 :=
    deletePhase_total quietEnv _ hdel
  have hready : (filledBuckets quietEnv 0 numBuckets.toNat).dstReady := by
    constructor
    · intro b hb0 hb
      obtain ⟨kb, rfl⟩ := Int.eq_ofNat_of_zero_le hb0
      have hnum : numBuckets = 500 := rfl
      have := assocGet_filledBuckets quietEnv numBuckets.toNat 0 kb (le_refl _) (by omega)
      simp only [zero_add] at this
      exact ⟨_, this⟩
    · intro name records hget p hp
      obtain ⟨k, _, hk⟩ := filledBuckets_mem quietEnv _ 0 _ (assocGet_mem hget)
      have hr : records = bucketRecords quietEnv (0 + (k : Int)) 0 txPerBucket.toNat :=
        (Prod.mk.inj hk).2
      rw [hr] at hp
      obtain ⟨j, hj, rfl⟩ := bucketRecords_mem quietEnv _ _ 0 p hp
      have htx := txPerBucket_eq
      exact ⟨_, _, by omega, by omega, rfl⟩
  ⟨fun _ _ => rfl, hdel, rfl,
    (addBackPhase_adds_totalDeleted quietEnv (fun _ _ => rfl)
      ⟨[("bucket_0", [])], [], 0, 0, []⟩
      ⟨[], filledBuckets quietEnv 0 numBuckets.toNat, 0, 5000, []⟩ hdel htot.symm hready).2.2.1⟩

/-- C7 (the code departs from it): when the random source yields 1, the first
`Put` of the last transaction of `main` goes to `bucket_1`, not to the first
bucket `bucketName(0)`, which stays as it was. -/
theorem addBackStep_puts_into_random_bucket :
    addBackStep oneDrawEnv txPerBucket ([("bucket_0", []), ("bucket_1", [])], 0)
        = (Status.nil,
            ([("bucket_0", []),
              ("bucket_1", [("key_1_2000", valueOf (oneDrawEnv.now 1 2000) 2000)])], 1)) ∧
      bucketName 0 = "bucket_0" ∧ bucketName 0 ≠ "bucket_1" := by
  decide

/-- Count of one call: when no `Put` and no bucket creation fails and the bucket
`bucketName(b)` is absent or empty, `insertObjectIntoBucket(tx, b)` returns nil
and leaves the bucket with exactly `txPerBucket = 2000` records of distinct
keys. -/
theorem insertObjectIntoBucket_count (env : Env) (hf : env.faultFree) (tx : DB)
    (b : Int)
    (hb : assocGet (bucketName b) tx = none ∨ assocGet (bucketName b) tx = some []) :
    (insertObjectIntoBucket env tx b).1 = Status.nil ∧
    ∃ records, assocGet (bucketName b) (insertObjectIntoBucket env tx b).2 = some records ∧
      records.length = 2000 ∧ (records.length : Int) = txPerBucket ∧
      (records.map Prod.fst).Nodup := by
  have htx : txPerBucket.toNat = 2000 := by decide
  rw [insertObjectIntoBucket_spec env hf tx b hb]
  refine ⟨rfl, _, assocGet_assocPut_self _ _ _, ?_, ?_, bucketRecords_nodup env b _ 0 (le_refl _)⟩
  · rw [bucketRecords_length, htx]
  · rw [bucketRecords_length, htx, txPerBucket_eq]; rfl

/-- C8 (the code departs from it): in the fault-free run `quietEnv` the call
`insertObjectIntoBucket(tx, 0)` on an empty transaction returns nil and leaves
`bucketName(0)` with exactly `txPerBucket = 2000` records, not with the
1000000 records that the comment in the function announces for each bucket. -/
theorem insertObjectIntoBucket_stores_two_thousand :
    (insertObjectIntoBucket quietEnv [] 0).1 = Status.nil ∧
    ∃ records, assocGet (bucketName 0) (insertObjectIntoBucket quietEnv [] 0).2 = some records ∧
      records.length = 2000 ∧ (records.length : Int) = txPerBucket ∧
      records.length ≠ 1000000 := by
  obtain ⟨hnil, records, hget, hlen, htx, -⟩ :=
    insertObjectIntoBucket_count quietEnv quietEnv_faultFree [] 0 (Or.inl rfl)
  refine ⟨hnil, records, hget, hlen, htx, ?_⟩
  omega

end BboltDemo
